import Mathlib

/-!
Verification development for the Conexpo exhibitor-directory scraper
(`scraper.py`).  The definitions below are a shallow embedding of the
program: browser/DOM interactions are modelled as explicit inputs (the
live card count, card link targets and detail-page contents observed at
each loop iteration), the file system as an explicit record, and Python
strings/regex operations as executable functions on `String`/`List Char`.
Python's `\d` and `str.strip`/`str.lower` are modelled over their ASCII
behaviour, which is the relevant range for this program's data.
-/

namespace Conexpo

/-! ## Python string primitives -/

/-- The whitespace characters removed by Python's `str.strip()`
(space, tab, newline, carriage return, vertical tab, form feed). -/
def isWS (c : Char) : Bool :=
  c.toNat == 32 || c.toNat == 9 || c.toNat == 10 || c.toNat == 13 ||
    c.toNat == 11 || c.toNat == 12

/-- Strip `isWS` characters from both ends of a character list. -/
def stripChars (l : List Char) : List Char :=
  ((l.dropWhile isWS).reverse.dropWhile isWS).reverse

/-- Model of Python `str.strip()`. -/
def pyStrip (s : String) : String := String.mk (stripChars s.data)

/-- Model of Python `str.lower()` (ASCII behaviour). -/
def pyLower (s : String) : String := String.mk (s.data.map Char.toLower)

/-! ## The phone regex `(\+?\d[\d\-(). ]{6,}\d)` of `_extract_exhibitor_details`

`re.search` scans start positions left to right; at a position the
pattern optionally consumes `'+'`, then requires a digit, then greedily
consumes characters of the class `[\d\-(). ]`, backtracking until the
final mandatory digit matches.  Since digits belong to the class, the
greedy match at a position ends at the last digit inside the maximal
class run, provided that digit sits at offset at least 7 from the first
digit. -/

/-- ASCII decimal digit (model of `\d`). -/
def isDig (c : Char) : Bool := 48 ≤ c.toNat && c.toNat ≤ 57

/-- The separator characters of the regex character class. -/
def phoneSep (c : Char) : Bool :=
  c == '-' || c == '(' || c == ')' || c == '.' || c == ' '

/-- The regex character class `[\d\-(). ]`. -/
def phoneClass (c : Char) : Bool := isDig c || phoneSep c

/-- Index of the last digit inside the maximal `phoneClass` prefix of `l`,
`none` when that prefix holds no digit. -/
def lastDigitIn : List Char → Option Nat
  | [] => none
  | c :: rest =>
    if phoneClass c then
      match lastDigitIn rest with
      | some k => some (k + 1)
      | none => if isDig c then some 0 else none
    else none

/-- Greedy match of `\d[\d\-(). ]{6,}\d` at the head of `l`: returns the
(inclusive) end index of the match when one exists. -/
def coreMatch (l : List Char) : Option Nat :=
  match l with
  | [] => none
  | c :: _ =>
    if isDig c then
      match lastDigitIn l with
      | some j => if 7 ≤ j then some j else none
      | none => none
    else none

/-- Attempt of the whole pattern `\+?\d[\d\-(). ]{6,}\d` at the head of `l`. -/
def matchAt (l : List Char) : Option (List Char) :=
  match l with
  | [] => none
  | c :: rest =>
    if c == '+' then (coreMatch rest).map (fun j => c :: rest.take (j + 1))
    else (coreMatch (c :: rest)).map (fun j => (c :: rest).take (j + 1))

/-- Model of `re.search`: first start position admitting a match. -/
def searchPhone : List Char → Option (List Char)
  | [] => none
  | c :: rest =>
    match matchAt (c :: rest) with
    | some m => some m
    | none => searchPhone rest

/-- The phone field: `phone_match.group(1).strip() if phone_match else ""`. -/
def phoneOf (t : String) : String :=
  match searchPhone t.data with
  | some m => pyStrip (String.mk m)
  | none => ""

/-! ## Records and the detail extractor (`_extract_exhibitor_details`) -/

/-- The timeout failure raised by the browser driver. -/
inductive PWTimeout
  | timeout
deriving DecidableEq

/-- The six scraped fields of one exhibitor. -/
structure Rec where
  company_name : String
  address : String
  website : String
  phone : String
  description : String
  booth : String
deriving DecidableEq

/-- What the exhibitor detail page shows: presence of the name element
(`wait_for_selector` times out when absent), the texts of the name,
address lines, first absolute-http link of the contact block (`none`
when no such link exists), the contact block's inner text, the
description section (`none` when absent) and the booth links.  Driver
calls of the form `x or ""` are modelled by the provided string. -/
structure DetailPage where
  namePresent : Bool
  nameText : String
  addressLines : List String
  websiteHref : Option String
  contactText : String
  descriptionText : Option String
  boothTexts : List String
deriving DecidableEq

/-- `_extract_exhibitor_details`: raises timeout when the name element
never appears, returns `none` ("incomplete") when any of the six fields
is empty, and the record otherwise. -/
def extractExhibitorDetails (p : DetailPage) : Except PWTimeout (Option Rec) :=
  if p.namePresent = false then Except.error PWTimeout.timeout
  else
    let company_name := pyStrip p.nameText
    let address_lines := (p.addressLines.map pyStrip).filter (fun s => s ≠ "")
    let address := String.intercalate ", " address_lines
    let website := match p.websiteHref with
      | some h => pyStrip h
      | none => ""
    let phone := phoneOf p.contactText
    let description := match p.descriptionText with
      | some d => pyStrip d
      | none => ""
    let booth_values := (p.boothTexts.map pyStrip).filter (fun s => s ≠ "")
    let booth := String.intercalate "; " booth_values
    if company_name = "" ∨ address = "" ∨ website = "" ∨ phone = "" ∨
        description = "" ∨ booth = "" then
      Except.ok none
    else
      Except.ok (some ⟨company_name, address, website, phone, description, booth⟩)

/-! ## Checkpoint store, output store and sink initialization -/

/-- The persisted checkpoint payload of `_save_checkpoint`. -/
structure Checkpoint where
  category : String
  subcategory : String
  exhibitor_index : Nat
deriving DecidableEq

/-- The fixed CSV header row. -/
def CSV_HEADERS : List String :=
  ["category", "subcategory", "company_name", "address", "website", "phone",
   "description", "booth"]

/-- The two files the program touches: the output CSV (rows of cells) and
the checkpoint JSON blob; `none` means the file does not exist. -/
structure FS where
  csv : Option (List (List String))
  checkpoint : Option Checkpoint
deriving DecidableEq

/-- `_init_csv`: create the output store with exactly the header row when
absent; leave it untouched otherwise. -/
def initCsv (fs : FS) : FS :=
  match fs.csv with
  | some _ => fs
  | none => { csv := some [CSV_HEADERS], checkpoint := fs.checkpoint }

/-- The label filtered out of every category/subcategory listing. -/
def VIEW_ALL_LABEL : String := "View All Exhibitors"

/-- The prefix of `run` executed in list-categories mode: `_init_csv` runs
first (line 181), the checkpoint is only read, the discovered categories
are filtered and their names printed, then the function returns.  Result:
the final file system and the list of printed category names.  Categories
are given as `(name, url)` pairs as extracted from the landing page. -/
def runListCategoriesMode (fs : FS) (categories : List (String × String)) :
    FS × List String :=
  let fs1 := initCsv fs
  let cats := categories.filter (fun c => c.1 ≠ VIEW_ALL_LABEL)
  (fs1, cats.map (fun c => c.1))

/-! ## Resume state derived from the loaded checkpoint (`run`, lines 182-188) -/

/-- Python truthiness of `checkpoint.get("...")`: `None` and `""` are falsy. -/
def truthyStr : Option String → Bool
  | none => false
  | some s => !(s == "")

/-- `resume_mode = bool(resume_category and resume_subcategory)`. -/
def resumeMode (rc rs : Option String) : Bool := truthyStr rc && truthyStr rs

/-- Python `name == maybe_none`: comparison with `None` is `False`. -/
def optEq (s : String) (o : Option String) : Bool :=
  match o with
  | some t => s == t
  | none => false

/-- `int(checkpoint.get("exhibitor_index", 0) or 0)`. -/
def resumeExhibitorIndex : Option Nat → Nat
  | none => 0
  | some n => n

/-- Lines 267-269: the start index of a subcategory's exhibitor loop. -/
def subcatVisitStart (rm : Bool) (rc rs : Option String) (ri : Nat)
    (cat sub : String) : Nat :=
  if rm && optEq cat rc && optEq sub rs then ri else 0

/-! ## The category / subcategory walk (`run`, lines 223-250)

Only the gating is modelled here: for each visited category, which of its
subcategories reach the exhibitor loop.  `subcatsProcessed` carries the
`subcategory_started` flag through one category visit; note that on the
matching subcategory name the flag is set and the iteration still
`continue`s, so the matching subcategory itself is skipped. -/

def subcatsProcessed (rm : Bool) (rc rs : Option String) (cat : String) :
    Bool → List String → List String
  | _, [] => []
  | started, sub :: rest =>
    if rm && optEq cat rc && !started then
      if optEq sub rs then subcatsProcessed rm rc rs cat true rest
      else subcatsProcessed rm rc rs cat started rest
    else sub :: subcatsProcessed rm rc rs cat started rest

/-- One category visit: line 245 initializes `subcategory_started` from the
category's name alone. -/
def categoryVisitSubs (rm : Bool) (rc rs : Option String) (cat : String)
    (subs : List String) : List String :=
  subcatsProcessed rm rc rs cat (!rm || !(optEq cat rc)) subs

/-- The category loop (lines 223-229): categories are skipped until one is
named like the checkpoint's category; from there every category is visited.
Each visited category is paired with the subcategory names it processes. -/
def catWalk (rm : Bool) (rc rs : Option String) :
    Bool → List (String × List String) → List (String × List String)
  | _, [] => []
  | started, (cat, subs) :: rest =>
    if !started then
      if optEq cat rc then
        (cat, categoryVisitSubs rm rc rs cat subs) :: catWalk rm rc rs true rest
      else catWalk rm rc rs false rest
    else (cat, categoryVisitSubs rm rc rs cat subs) :: catWalk rm rc rs true rest

/-- The whole walk: `category_started = not resume_mode` (line 223). -/
def runWalk (rm : Bool) (rc rs : Option String)
    (cats : List (String × List String)) : List (String × List String) :=
  catWalk rm rc rs (!rm) cats

/-- The subcategory names strictly after the first one equal to the
checkpoint's subcategory (everything up to and including that first
occurrence is skipped; when none matches, everything is skipped).  This
is the declarative effect of the skip of lines 247-250 on one visit. -/
def subcatSkipFilter (rs : Option String) : List String → List String
  | [] => []
  | s :: rest => if optEq s rs then rest else subcatSkipFilter rs rest

/-! ## The bounded-retry navigator (`_safe_goto`)

`outcome t` tells whether the `t`-th `page.goto` attempt (0-based)
succeeds.  The source counts failures upward (`attempt > retries` aborts);
here the remaining-retries budget `rem = retries - t` counts down, which
is the same iteration expressed structurally.  The result pairs the
outcome (successful attempt number, or the propagated timeout) with the
number of `goto` attempts made. -/

def safeGotoRem (outcome : Nat → Bool) : Nat → Nat → Except PWTimeout Nat × Nat
  | t, 0 => if outcome t then (Except.ok t, 1) else (Except.error PWTimeout.timeout, 1)
  | t, rem + 1 =>
    if outcome t then (Except.ok t, 1)
    else
      ((safeGotoRem outcome (t + 1) rem).1, (safeGotoRem outcome (t + 1) rem).2 + 1)

/-- `_safe_goto(page, url, retries=2)` with attempt outcomes `outcome`. -/
def safeGoto (outcome : Nat → Bool) (retries : Nat) : Except PWTimeout Nat × Nat :=
  safeGotoRem outcome 0 retries

/-! ## The per-subcategory exhibitor loop (`run`, lines 267-355)

One loop iteration observes the live DOM: the current card count, the
current card's link target (`none` when the card has no link element,
otherwise `get_attribute("href") or ""`), and the detail page reached by
clicking the link.  `env t` is the observation made by the `t`-th
iteration, which models the dynamic re-querying of the card list.  The
state mirrors the Python locals, extended with ghost logs (`log`,
`encountered`, `visited`, `extracted`) recording the prints, the hrefs
read from cards, the cards navigated into, and the successfully
extracted records. -/

/-- One row appended to the output CSV (`_append_row`). -/
structure Row where
  category : String
  subcategory : String
  record : Rec
deriving DecidableEq

/-- The distinct messages printed inside the exhibitor loop. -/
inductive LogMsg
  | skipTimeout
  | skipMissingFields
  | foundResume (name : String)
  | wrote (name : String)
deriving DecidableEq

/-- The mutable state of the exhibitor loop. -/
structure LoopState where
  idx : Nat
  seen : List String
  nameFound : Bool
  csv : List Row
  ckpt : Option Checkpoint
  log : List LogMsg
  encountered : List String
  visited : List String
  extracted : List Rec
deriving DecidableEq

/-- The DOM observation of one loop iteration. -/
structure IterView where
  liveCount : Nat
  cardHref : Option String
  detail : DetailPage
deriving DecidableEq

/-- Outcome of one iteration body: `brk` for the `break` at line 274,
otherwise the updated state. -/
inductive StepOut
  | brk
  | next (s : LoopState)
deriving DecidableEq

/-- One body of the `while exhibitor_index < exhibitor_count` loop
(lines 272-353).  `ran` is `resume_after_name` (the target company name,
already stripped and lowercased at line 187). -/
def loopStep (ran : String) (cat sub : String) (v : IterView) (s : LoopState) :
    StepOut :=
  if v.liveCount ≤ s.idx then StepOut.brk
  else
    match v.cardHref with
    | none => StepOut.next { s with idx := s.idx + 1 }
    | some href =>
      if href ∈ s.seen then
        StepOut.next { s with
          encountered := s.encountered ++ [href],
          idx := s.idx + 1 }
      else
        match extractExhibitorDetails v.detail with
        | Except.error PWTimeout.timeout =>
          StepOut.next { s with
            encountered := s.encountered ++ [href],
            seen := href :: s.seen,
            visited := s.visited ++ [href],
            log := s.log ++ [LogMsg.skipTimeout],
            idx := s.idx + 1,
            ckpt := some ⟨cat, sub, s.idx + 1⟩ }
        | Except.ok none =>
          StepOut.next { s with
            encountered := s.encountered ++ [href],
            seen := href :: s.seen,
            visited := s.visited ++ [href],
            log := s.log ++ [LogMsg.skipMissingFields],
            idx := s.idx + 1,
            ckpt := some ⟨cat, sub, s.idx + 1⟩ }
        | Except.ok (some r) =>
          if s.nameFound = false then
            if pyLower (pyStrip r.company_name) == ran then
              StepOut.next { s with
                encountered := s.encountered ++ [href],
                seen := href :: s.seen,
                visited := s.visited ++ [href],
                extracted := s.extracted ++ [r],
                nameFound := true,
                log := s.log ++ [LogMsg.foundResume (pyStrip r.company_name)],
                idx := s.idx + 1,
                ckpt := some ⟨cat, sub, s.idx + 1⟩ }
            else
              StepOut.next { s with
                encountered := s.encountered ++ [href],
                seen := href :: s.seen,
                visited := s.visited ++ [href],
                extracted := s.extracted ++ [r],
                idx := s.idx + 1,
                ckpt := some ⟨cat, sub, s.idx + 1⟩ }
          else
            StepOut.next { s with
              encountered := s.encountered ++ [href],
              seen := href :: s.seen,
              visited := s.visited ++ [href],
              extracted := s.extracted ++ [r],
              csv := s.csv ++ [⟨cat, sub, r⟩],
              log := s.log ++ [LogMsg.wrote r.company_name],
              idx := s.idx + 1,
              ckpt := some ⟨cat, sub, s.idx + 1⟩ }

/-- The loop itself, embedded with a fuel bound for structural recursion;
`loopRunF_fuel_stable` below shows any fuel of at least
`count - s.idx` yields the same result, i.e. the loop terminates on its
own.  Returns the final state and the number of iterations executed. -/
def loopRunF (ran cat sub : String) (env : Nat → IterView) (count : Nat) :
    Nat → Nat → LoopState → LoopState × Nat
  | 0, _, s => (s, 0)
  | fuel + 1, t, s =>
    if s.idx < count then
      match loopStep ran cat sub (env t) s with
      | StepOut.brk => (s, 0)
      | StepOut.next s1 =>
        ((loopRunF ran cat sub env count fuel (t + 1) s1).1,
         (loopRunF ran cat sub env count fuel (t + 1) s1).2 + 1)
    else (s, 0)

/-- One full subcategory visit (lines 267-355): the loop starts with a
fresh `seen_exhibitors` set, runs from `startIdx`, and afterwards the
checkpoint is saved once more with the final index (line 355). -/
def runSubcatVisit (ran cat sub : String) (env : Nat → IterView) (count : Nat)
    (startIdx : Nat) (nameFound0 : Bool) (csv0 : List Row)
    (ckpt0 : Option Checkpoint) : LoopState × Nat :=
  let s0 : LoopState := ⟨startIdx, [], nameFound0, csv0, ckpt0, [], [], [], []⟩
  let r := loopRunF ran cat sub env count count 0 s0
  ({ r.1 with ckpt := some ⟨cat, sub, r.1.idx⟩ }, r.2)

/-- The name-gate predicate of line 323 on an extracted record. -/
def matchesTarget (ran : String) (r : Rec) : Bool :=
  pyLower (pyStrip r.company_name) == ran

/-- The records strictly after the first one matching the target
(everything up to and including the first match is discarded). -/
def gateFilter (ran : String) : List Rec → List Rec
  | [] => []
  | r :: rest => if matchesTarget ran r then rest else gateFilter ran rest

/-- First occurrences of each string, in order (the per-visit dedupe). -/
def firstOccAux (seen : List String) : List String → List String
  | [] => []
  | h :: t => if h ∈ seen then firstOccAux seen t else h :: firstOccAux (h :: seen) t

/-- First occurrences of each string in `l`, in order. -/
def firstOccurrences (l : List String) : List String := firstOccAux [] l

/-! ## Declarative shape of a phone-regex match

`CoreShape core` states, following the spec's description, that `core` is
a run of length at least 8 consisting of digits and the separators
`- . ( )` and space, beginning and ending with a digit; `MatchShape m`
additionally allows one leading `'+'`. -/

/-- The `\d[\d\-(). ]{6,}\d` part of a match, described declaratively. -/
def CoreShape (core : List Char) : Prop :=
  8 ≤ core.length ∧ (∀ c ∈ core, phoneClass c = true)
  ∧ (∃ d rest, core = d :: rest ∧ isDig d = true)
  ∧ (∃ init d, core = init ++ [d] ∧ isDig d = true)

/-- A full match of the phone pattern: a core run, optionally preceded by
`'+'`. -/
def MatchShape (m : List Char) : Prop :=
  CoreShape m ∨ ∃ core, m = '+' :: core ∧ CoreShape core

/-! ## Concrete inputs used by the witnesses -/

/-- A detail page on which every field extracts non-empty. -/
def dpW (nm : String) : DetailPage :=
  ⟨true, nm, ["a"], some "h", "12345678", some "d", ["B1"]⟩

/-- The record extracted from `dpW nm`. -/
def recW (nm : String) : Rec := ⟨nm, "a", "h", "12345678", "d", "B1"⟩

/-- A detail page whose name element never appears (extraction times out). -/
def dpT : DetailPage := ⟨false, "", [], none, "", none, []⟩

/-- A three-card environment with three distinct exhibitors. -/
def envW : Nat → IterView := fun t =>
  if t = 0 then ⟨3, some "h0", dpW "Alpha"⟩
  else if t = 1 then ⟨3, some "h1", dpW "Beta"⟩
  else ⟨3, some "h2", dpW "Gamma"⟩

/-- A three-card environment where the first two cards share a link target. -/
def envD : Nat → IterView := fun t =>
  if t = 0 then ⟨3, some "h0", dpW "Alpha"⟩
  else if t = 1 then ⟨3, some "h0", dpW "Beta"⟩
  else ⟨3, some "h2", dpW "Gamma"⟩

/-- The loop state at the start of a fresh subcategory visit (gate active). -/
def sA : LoopState := ⟨0, [], false, [], none, [], [], [], []⟩

/-- The state after `sA` processes a gate-discarded record from card `"h"`. -/
def s1A : LoopState :=
  ⟨1, ["h"], false, [], some ⟨"c", "s", 1⟩, [], ["h"], ["h"], [recW "Alpha"]⟩

/-- A state whose seen-set already holds the link target `"h"`. -/
def sD : LoopState := ⟨0, ["h"], true, [], none, [], ["h"], ["h"], []⟩

/-! ## Theorems -/

/-- C8: sink initialization is idempotent: when the output store is absent
it is created containing exactly the header row; when it exists its
content is unchanged; a second initialization changes nothing; the
checkpoint store is untouched. -/
theorem init_csv_idempotent (fs : FS) :
    initCsv (initCsv fs) = initCsv fs
    ∧ (∀ c, fs.csv = some c → (initCsv fs).csv = some c)
    ∧ (fs.csv = none → (initCsv fs).csv = some [CSV_HEADERS])
    ∧ (initCsv fs).checkpoint = fs.checkpoint := by
  rcases fs with ⟨csv, cp⟩
  cases csv <;> simp [initCsv]

/-- Witness for `init_csv_idempotent` at a concrete file system. -/
theorem init_csv_idempotent_witness :
    (⟨none, none⟩ : FS).csv = none
    ∧ (initCsv ⟨none, none⟩).csv = some [CSV_HEADERS]
    ∧ initCsv (initCsv ⟨none, none⟩) = initCsv ⟨none, none⟩ :=
  ⟨rfl, (init_csv_idempotent ⟨none, none⟩).2.2.1 rfl, (init_csv_idempotent ⟨none, none⟩).1⟩

/-- C7 counterexample: in list-categories mode, starting from a file system
where the output store does not exist, a new output file containing the
header row is created (`_init_csv` runs at line 181 before the
list-categories branch), so the file system is not left unchanged. -/
theorem list_categories_creates_csv_cex :
    (runListCategoriesMode ⟨none, none⟩ [("A", "u")]).1 ≠ (⟨none, none⟩ : FS)
    ∧ (runListCategoriesMode ⟨none, none⟩ [("A", "u")]).1.csv = some [CSV_HEADERS]
    ∧ (runListCategoriesMode ⟨none, none⟩ [("A", "u")]).2 = ["A"] := by
  refine ⟨?_, rfl, rfl⟩
  intro h
  exact Option.noConfusion (congrArg FS.csv h)

/-- C7 amended: list-categories mode prints every discovered category name
and never writes the checkpoint store; an existing output store is left
unchanged, but when the output store is absent it is created containing
exactly the header row (by the sink initialization that runs before the
mode check). -/
theorem list_categories_effects (fs : FS) (categories : List (String × String)) :
    (runListCategoriesMode fs categories).1.checkpoint = fs.checkpoint
    ∧ (∀ c, fs.csv = some c → (runListCategoriesMode fs categories).1.csv = some c)
    ∧ (fs.csv = none → (runListCategoriesMode fs categories).1.csv = some [CSV_HEADERS])
    ∧ (runListCategoriesMode fs categories).2 =
        (categories.filter (fun c => c.1 ≠ VIEW_ALL_LABEL)).map (fun c => c.1) := by
  rcases fs with ⟨csv, cp⟩
  cases csv <;> simp [runListCategoriesMode, initCsv]

/-- Witness for `list_categories_effects` at a concrete input. -/
theorem list_categories_effects_witness :
    (runListCategoriesMode ⟨some [["x"]], none⟩ [("A", "u"), ("View All Exhibitors", "v")]).1.csv
      = some [["x"]]
    ∧ (runListCategoriesMode ⟨some [["x"]], none⟩
        [("A", "u"), ("View All Exhibitors", "v")]).2 = ["A"] :=
  ⟨(list_categories_effects ⟨some [["x"]], none⟩ [("A", "u"), ("View All Exhibitors", "v")]).2.1
      [["x"]] rfl,
   by decide⟩

/-- C2: with a loaded checkpoint `(C, S, N)` (both names non-empty, so
`resume_mode` holds), the exhibitor loop's start index is `N` exactly when
the currently visited category is named `C` and the currently visited
subcategory is named `S`; every other visit starts at index 0. -/
theorem exhibitor_index_only_for_checkpoint_pair (C S : String) (N : Nat)
    (hC : C ≠ "") (hS : S ≠ "") (cat sub : String) :
    (cat = C → sub = S →
      subcatVisitStart (resumeMode (some C) (some S)) (some C) (some S) N cat sub = N)
    ∧ (¬(cat = C ∧ sub = S) →
      subcatVisitStart (resumeMode (some C) (some S)) (some C) (some S) N cat sub = 0) := by
  constructor
  · rintro rfl rfl
    simp [subcatVisitStart, resumeMode, truthyStr, optEq, hC, hS]
  · intro h
    have hor : (cat == C) = false ∨ (sub == S) = false := by
      rcases not_and_or.mp h with h1 | h1
      · exact Or.inl (beq_eq_false_iff_ne.mpr h1)
      · exact Or.inr (beq_eq_false_iff_ne.mpr h1)
    rcases hor with h1 | h1 <;> simp [subcatVisitStart, optEq, h1]

/-- Witness for `exhibitor_index_only_for_checkpoint_pair`: checkpoint
`("B", "S2", 3)`, visits to `("B", "S2")` and `("B", "S1")`. -/
theorem exhibitor_index_only_for_checkpoint_pair_witness :
    subcatVisitStart (resumeMode (some "B") (some "S2")) (some "B") (some "S2") 3 "B" "S2" = 3
    ∧ subcatVisitStart (resumeMode (some "B") (some "S2")) (some "B") (some "S2") 3 "B" "S1" = 0 :=
  ⟨(exhibitor_index_only_for_checkpoint_pair "B" "S2" 3 (by decide) (by decide) "B" "S2").1
      rfl rfl,
   (exhibitor_index_only_for_checkpoint_pair "B" "S2" 3 (by decide) (by decide) "B" "S1").2
      (by simp)⟩

/-- When a category's name differs from the checkpoint's category, its
subcategory loop processes every subcategory (no skipping). -/
theorem subcatsProcessed_of_name_ne (rm : Bool) (rc rs : Option String)
    (cat : String) (h : optEq cat rc = false) :
    ∀ b subs, subcatsProcessed rm rc rs cat b subs = subs := by
  intro b subs
  induction subs generalizing b with
  | nil => rfl
  | cons s rest ih => simp [subcatsProcessed, h, ih]

/-- Once `subcategory_started` holds, every remaining subcategory is
processed. -/
theorem subcatsProcessed_started (rm : Bool) (rc rs : Option String) (cat : String) :
    ∀ subs, subcatsProcessed rm rc rs cat true subs = subs := by
  intro subs
  induction subs with
  | nil => rfl
  | cons s rest ih => simp [subcatsProcessed, ih]

/-- In a resume-mode visit to a category named like the checkpoint's
category, the subcategories processed are exactly those strictly after
the first one named like the checkpoint's subcategory: the skip applies
and swallows the matching name itself. -/
theorem subcatsProcessed_of_name_eq (rm : Bool) (rc rs : Option String)
    (cat : String) (hrm : rm = true) (hc : optEq cat rc = true) :
    ∀ subs, subcatsProcessed rm rc rs cat false subs = subcatSkipFilter rs subs := by
  subst hrm
  intro subs
  induction subs with
  | nil => rfl
  | cons s rest ih =>
    by_cases hs : optEq s rs = true
    · simp [subcatsProcessed, subcatSkipFilter, hc, hs,
        subcatsProcessed_started]
    · simp [subcatsProcessed, subcatSkipFilter, hc, hs, ih]

/-- C3 counterexample: checkpoint category `"B"`, subcategory `"S2"`; the
traversal visits two categories both named `"B"`.  The second visit lies
after the resume match, yet it again skips `"S1"` and `"S2"`: the
subcategory skip is keyed on the category name, not applied one-shot. -/
theorem subcat_skip_reapplies_cex :
    runWalk true (some "B") (some "S2")
        [("B", ["S1", "S2", "S3"]), ("B", ["S1", "S2", "S3"])] =
      [("B", ["S3"]), ("B", ["S3"])]
    ∧ (["S3"] : List String) ≠ ["S1", "S2", "S3"] := by
  decide

/-- C3 amended: subcategory-skipping applies exactly within visits to
categories whose name equals the checkpoint's category — in every such
visit (not only the first) the subcategories processed are exactly those
strictly after the first one named like the checkpoint's subcategory,
which is itself skipped — while every visited category whose name
differs from the checkpoint's category has no subcategory skipped.
Only when category names are distinct does this make the skip one-shot. -/
theorem subcat_skip_only_in_matching_name_categories (rm : Bool) (rc rs : Option String) :
    (∀ cat subs, optEq cat rc = false → categoryVisitSubs rm rc rs cat subs = subs)
    ∧ (∀ cat subs, rm = true → optEq cat rc = true →
        categoryVisitSubs rm rc rs cat subs = subcatSkipFilter rs subs)
    ∧ (∀ b cats, ∀ p ∈ catWalk rm rc rs b cats, optEq p.1 rc = false →
        p ∈ cats)
    ∧ (∀ b cats, ∀ p ∈ catWalk rm rc rs b cats, rm = true → optEq p.1 rc = true →
        ∃ subs, (p.1, subs) ∈ cats ∧ p.2 = subcatSkipFilter rs subs) := by
  have hvisit : ∀ b cats, ∀ p ∈ catWalk rm rc rs b cats,
      ∃ subs, (p.1, subs) ∈ cats ∧ p.2 = categoryVisitSubs rm rc rs p.1 subs := by
    intro b cats
    induction cats generalizing b with
    | nil => intro p hp; simp [catWalk] at hp
    | cons hd rest ih =>
      intro p hp
      rcases hd with ⟨c, subs⟩
      simp only [catWalk] at hp
      by_cases hb : b
      · simp [hb] at hp
        rcases hp with rfl | hp
        · exact ⟨subs, List.mem_cons_self _ _, rfl⟩
        · obtain ⟨subs2, hmem, heq⟩ := ih true p hp
          exact ⟨subs2, List.mem_cons_of_mem _ hmem, heq⟩
      · simp [hb] at hp
        by_cases hc : optEq c rc
        · simp [hc] at hp
          rcases hp with rfl | hp
          · exact ⟨subs, List.mem_cons_self _ _, rfl⟩
          · obtain ⟨subs2, hmem, heq⟩ := ih true p hp
            exact ⟨subs2, List.mem_cons_of_mem _ hmem, heq⟩
        · simp [hc] at hp
          obtain ⟨subs2, hmem, heq⟩ := ih false p hp
          exact ⟨subs2, List.mem_cons_of_mem _ hmem, heq⟩
  have hne : ∀ cat subs, optEq cat rc = false →
      categoryVisitSubs rm rc rs cat subs = subs := by
    intro cat subs h
    exact subcatsProcessed_of_name_ne rm rc rs cat h _ subs
  have heqv : ∀ cat subs, rm = true → optEq cat rc = true →
      categoryVisitSubs rm rc rs cat subs = subcatSkipFilter rs subs := by
    intro cat subs hrm hc
    unfold categoryVisitSubs
    have hinit : (!rm || !(optEq cat rc)) = false := by rw [hrm, hc]; rfl
    rw [hinit]
    exact subcatsProcessed_of_name_eq rm rc rs cat hrm hc subs
  refine ⟨hne, heqv, ?_, ?_⟩
  · intro b cats p hp hpne
    obtain ⟨subs, hmem, heq⟩ := hvisit b cats p hp
    rw [hne p.1 subs hpne] at heq
    have : p = (p.1, subs) := by
      rcases p with ⟨p1, p2⟩
      simp at heq
      simp [heq]
    rw [this]
    exact hmem
  · intro b cats p hp hrm hpc
    obtain ⟨subs, hmem, heq⟩ := hvisit b cats p hp
    rw [heqv p.1 subs hrm hpc] at heq
    exact ⟨subs, hmem, heq⟩

/-- Witness for `subcat_skip_only_in_matching_name_categories`: category
`"C"` differs from checkpoint category `"B"` and is fully processed. -/
theorem subcat_skip_only_in_matching_name_categories_witness :
    categoryVisitSubs true (some "B") (some "S2") "C" ["S1", "S2"] = ["S1", "S2"]
    ∧ categoryVisitSubs true (some "B") (some "S2") "B" ["S1", "S2", "S3"]
        = subcatSkipFilter (some "S2") ["S1", "S2", "S3"]
    ∧ ("C", ["S1", "S2"]) ∈ [("B", ["S1", "S2"]), ("C", ["S1", "S2"])]
    ∧ ∃ subs, (("B", subs) : String × List String) ∈
          [("B", ["S1", "S2", "S3"]), ("B", ["S1", "S2", "S3"])]
        ∧ (["S3"] : List String) = subcatSkipFilter (some "S2") subs :=
  ⟨(subcat_skip_only_in_matching_name_categories true (some "B") (some "S2")).1
      "C" ["S1", "S2"] (by decide),
   (subcat_skip_only_in_matching_name_categories true (some "B") (some "S2")).2.1
      "B" ["S1", "S2", "S3"] rfl (by decide),
   (subcat_skip_only_in_matching_name_categories true (some "B") (some "S2")).2.2.1
      false [("B", ["S1", "S2"]), ("C", ["S1", "S2"])] ("C", ["S1", "S2"])
      (by decide) (by decide),
   (subcat_skip_only_in_matching_name_categories true (some "B") (some "S2")).2.2.2
      false [("B", ["S1", "S2", "S3"]), ("B", ["S1", "S2", "S3"])] ("B", ["S3"])
      (by decide) rfl (by decide)⟩

/-- Full contract of the retry helper on the remaining-budget form. -/
theorem safeGotoRem_spec (outcome : Nat → Bool) :
    ∀ rem t,
      (safeGotoRem outcome t rem).2 ≤ rem + 1
      ∧ (∀ k, (safeGotoRem outcome t rem).1 = Except.ok k →
          outcome k = true ∧ t ≤ k ∧ k ≤ t + rem
          ∧ (∀ j, t ≤ j → j < k → outcome j = false)
          ∧ (safeGotoRem outcome t rem).2 = k + 1 - t)
      ∧ ((safeGotoRem outcome t rem).1 = Except.error PWTimeout.timeout →
          (∀ j, t ≤ j → j ≤ t + rem → outcome j = false)
          ∧ (safeGotoRem outcome t rem).2 = rem + 1) := by
  intro rem
  induction rem with
  | zero =>
    intro t
    by_cases h : outcome t
    · refine ⟨by simp [safeGotoRem, h], ?_, ?_⟩
      · intro k hk
        simp [safeGotoRem, h] at hk
        subst hk
        exact ⟨h, le_refl t, by omega, fun j h1 h2 => by omega, by simp [safeGotoRem, h]⟩
      · intro hk
        simp [safeGotoRem, h] at hk
    · refine ⟨by simp [safeGotoRem, h], ?_, ?_⟩
      · intro k hk
        simp [safeGotoRem, h] at hk
      · intro _
        refine ⟨fun j h1 h2 => ?_, by simp [safeGotoRem, h]⟩
        have : j = t := by omega
        subst this
        simpa using h
  | succ rem ih =>
    intro t
    by_cases h : outcome t
    · refine ⟨by simp [safeGotoRem, h], ?_, ?_⟩
      · intro k hk
        simp [safeGotoRem, h] at hk
        subst hk
        exact ⟨h, le_refl t, by omega, fun j h1 h2 => by omega, by simp [safeGotoRem, h]⟩
      · intro hk
        simp [safeGotoRem, h] at hk
    · have hrw1 : (safeGotoRem outcome t (rem + 1)).1 = (safeGotoRem outcome (t + 1) rem).1 := by
        simp [safeGotoRem, h]
      have hrw2 : (safeGotoRem outcome t (rem + 1)).2 = (safeGotoRem outcome (t + 1) rem).2 + 1 := by
        simp [safeGotoRem, h]
      obtain ⟨ih1, ih2, ih3⟩ := ih (t + 1)
      refine ⟨by omega, ?_, ?_⟩
      · intro k hk
        rw [hrw1] at hk
        obtain ⟨hk1, hk2, hk3, hk4, hk5⟩ := ih2 k hk
        refine ⟨hk1, by omega, by omega, ?_, by omega⟩
        intro j h1 h2
        rcases Nat.lt_or_ge j (t + 1) with hj | hj
        · have : j = t := by omega
          subst this
          simpa using h
        · exact hk4 j hj h2
      · intro hk
        rw [hrw1] at hk
        obtain ⟨hk1, hk2⟩ := ih3 hk
        refine ⟨?_, by omega⟩
        intro j h1 h2
        rcases Nat.lt_or_ge j (t + 1) with hj | hj
        · have : j = t := by omega
          subst this
          simpa using h
        · exact hk1 j hj (by omega)

/-- Decidable equality for driver results, used to evaluate the model on
concrete inputs. -/
instance {ε α : Type} [DecidableEq ε] [DecidableEq α] : DecidableEq (Except ε α) := fun a b =>
  match a, b with
  | Except.ok x, Except.ok y =>
    if h : x = y then isTrue (by rw [h]) else isFalse (fun hh => h (Except.ok.inj hh))
  | Except.error x, Except.error y =>
    if h : x = y then isTrue (by rw [h]) else isFalse (fun hh => h (Except.error.inj hh))
  | Except.ok _, Except.error _ => isFalse (fun hh => Except.noConfusion hh)
  | Except.error _, Except.ok _ => isFalse (fun hh => Except.noConfusion hh)

/-- Every non-breaking iteration advances the exhibitor index by exactly 1. -/
theorem loopStep_next_idx (ran cat sub : String) (v : IterView) (s s1 : LoopState)
    (h : loopStep ran cat sub v s = StepOut.next s1) : s1.idx = s.idx + 1 := by
  unfold loopStep at h
  repeat' split at h
  all_goals first
    | exact StepOut.noConfusion h
    | (cases h; rfl)

/-- How one iteration changes the extraction trace, the output rows and the
name gate: either nothing is extracted (and rows and gate are unchanged), or
exactly one record is extracted, the gate absorbs its match result, the
record is written exactly when the gate was already off, and the index and
checkpoint advance. -/
theorem loopStep_trace (ran cat sub : String) (v : IterView) (s s1 : LoopState)
    (h : loopStep ran cat sub v s = StepOut.next s1) :
    (s1.extracted = s.extracted ∧ s1.csv = s.csv ∧ s1.nameFound = s.nameFound)
    ∨ (∃ r, s1.extracted = s.extracted ++ [r]
        ∧ s1.nameFound = (s.nameFound || matchesTarget ran r)
        ∧ s1.csv = s.csv ++ (if s.nameFound then [Row.mk cat sub r] else [])
        ∧ s1.idx = s.idx + 1
        ∧ s1.ckpt = some ⟨cat, sub, s.idx + 1⟩) := by
  unfold loopStep at h
  split at h
  · exact StepOut.noConfusion h
  · split at h
    · cases h
      exact Or.inl ⟨rfl, rfl, rfl⟩
    · rename_i href
      split at h
      · cases h
        exact Or.inl ⟨rfl, rfl, rfl⟩
      · split at h
        · cases h
          exact Or.inl ⟨rfl, rfl, rfl⟩
        · cases h
          exact Or.inl ⟨rfl, rfl, rfl⟩
        · rename_i r _
          split at h
          · rename_i hnf
            split at h
            · rename_i hm
              cases h
              refine Or.inr ⟨r, rfl, ?_, ?_, rfl, rfl⟩
              · simp [matchesTarget, hnf, hm]
              · simp [hnf]
            · rename_i hm
              cases h
              refine Or.inr ⟨r, rfl, ?_, ?_, rfl, rfl⟩
              · simp only [matchesTarget, hnf, Bool.false_or]
                exact (Bool.not_eq_true _).mp hm |>.symm
              · simp [hnf]
          · rename_i hnf
            have hnf' : s.nameFound = true := by
              cases hb : s.nameFound
              · exact absurd hb hnf
              · rfl
            cases h
            refine Or.inr ⟨r, rfl, ?_, ?_, rfl, rfl⟩
            · simp [hnf']
            · simp [hnf']

/-- How one iteration changes the dedupe data: either no card link was read,
or a repeated link target was skipped (recorded as encountered, not
visited), or a fresh link target was visited and added to the seen set. -/
theorem loopStep_dedupe_cases (ran cat sub : String) (v : IterView) (s s1 : LoopState)
    (h : loopStep ran cat sub v s = StepOut.next s1) :
    (s1.encountered = s.encountered ∧ s1.visited = s.visited ∧ s1.seen = s.seen)
    ∨ (∃ href, v.cardHref = some href ∧ href ∈ s.seen
        ∧ s1.encountered = s.encountered ++ [href] ∧ s1.visited = s.visited
        ∧ s1.seen = s.seen)
    ∨ (∃ href, v.cardHref = some href ∧ href ∉ s.seen
        ∧ s1.encountered = s.encountered ++ [href]
        ∧ s1.visited = s.visited ++ [href]
        ∧ s1.seen = href :: s.seen) := by
  unfold loopStep at h
  split at h
  · exact StepOut.noConfusion h
  · split at h
    · cases h
      exact Or.inl ⟨rfl, rfl, rfl⟩
    · rename_i href heq
      split at h
      · rename_i hmem
        cases h
        exact Or.inr (Or.inl ⟨href, heq, hmem, rfl, rfl, rfl⟩)
      · rename_i hmem
        split at h
        · cases h
          exact Or.inr (Or.inr ⟨href, heq, hmem, rfl, rfl, rfl⟩)
        · cases h
          exact Or.inr (Or.inr ⟨href, heq, hmem, rfl, rfl, rfl⟩)
        · split at h
          · split at h
            · cases h
              exact Or.inr (Or.inr ⟨href, heq, hmem, rfl, rfl, rfl⟩)
            · cases h
              exact Or.inr (Or.inr ⟨href, heq, hmem, rfl, rfl, rfl⟩)
          · cases h
            exact Or.inr (Or.inr ⟨href, heq, hmem, rfl, rfl, rfl⟩)

/-- The loop executes at most `count - s.idx` iterations: the `while` guard
compares the index against the count read once per visit, and the index
grows by 1 each iteration. -/
theorem loopRunF_iters_le (ran cat sub : String) (env : Nat → IterView) (count : Nat) :
    ∀ fuel t s, (loopRunF ran cat sub env count fuel t s).2 ≤ count - s.idx := by
  intro fuel
  induction fuel with
  | zero => intro t s; simp [loopRunF]
  | succ fuel ih =>
    intro t s
    by_cases hlt : s.idx < count
    · rcases hm : loopStep ran cat sub (env t) s with _ | s1
      · simp [loopRunF, hlt, hm]
      · have h1 := ih (t + 1) s1
        have h2 := loopStep_next_idx ran cat sub (env t) s s1 hm
        simp only [loopRunF, hlt, if_pos, hm]
        omega
    · simp [loopRunF, hlt]

/-- Fuel does not matter once it covers `count - s.idx`: the loop reaches
its exit condition by itself within that many iterations. -/
theorem loopRunF_fuel_stable (ran cat sub : String) (env : Nat → IterView) (count : Nat) :
    ∀ fuel t s, count - s.idx ≤ fuel →
      loopRunF ran cat sub env count fuel t s
        = loopRunF ran cat sub env count (count - s.idx) t s := by
  intro fuel
  induction fuel with
  | zero =>
    intro t s h
    have h0 : count - s.idx = 0 := by omega
    rw [h0]
  | succ fuel ih =>
    intro t s h
    by_cases hlt : s.idx < count
    · have hk : count - s.idx = (count - s.idx - 1) + 1 := by omega
      rw [hk]
      rcases hm : loopStep ran cat sub (env t) s with _ | s1
      · simp [loopRunF, hlt, hm]
      · have hidx := loopStep_next_idx ran cat sub (env t) s s1 hm
        have h1 : count - s1.idx ≤ fuel := by omega
        have h3 : count - s.idx - 1 = count - s1.idx := by omega
        simp only [loopRunF, hlt, if_pos, hm]
        rw [ih (t + 1) s1 h1, h3]
    · have h0 : count - s.idx = 0 := by omega
      rw [h0]
      simp [loopRunF, hlt]

/-- An invariant preserved by every loop iteration holds of the loop's
final state. -/
theorem loopRunF_inv (ran cat sub : String) (env : Nat → IterView) (count : Nat)
    (P : LoopState → Prop)
    (hstep : ∀ t s s1, P s → loopStep ran cat sub (env t) s = StepOut.next s1 → P s1) :
    ∀ fuel t s, P s → P (loopRunF ran cat sub env count fuel t s).1 := by
  intro fuel
  induction fuel with
  | zero => intro t s h; simpa [loopRunF] using h
  | succ fuel ih =>
    intro t s h
    by_cases hlt : s.idx < count
    · rcases hm : loopStep ran cat sub (env t) s with _ | s1
      · simpa [loopRunF, hlt, hm] using h
      · simp only [loopRunF, hlt, if_pos, hm]
        exact ih (t + 1) s1 (hstep t s s1 h hm)
    · simpa [loopRunF, hlt] using h

/-- The functional effect of a whole loop run on the extraction trace, the
output rows and the name gate: some list `Δ` of records is extracted; the
rows appended are `Δ` itself when the gate started off, and the records
strictly after the first target match when the gate started active; the
gate ends active iff it started active or some extracted record matched. -/
theorem loopRunF_gate (ran cat sub : String) (env : Nat → IterView) (count : Nat) :
    ∀ fuel t s, ∃ Δ,
      (loopRunF ran cat sub env count fuel t s).1.extracted = s.extracted ++ Δ
      ∧ (loopRunF ran cat sub env count fuel t s).1.csv
          = s.csv ++ (if s.nameFound then Δ else gateFilter ran Δ).map
              (fun r => Row.mk cat sub r)
      ∧ (loopRunF ran cat sub env count fuel t s).1.nameFound
          = (s.nameFound || Δ.any (matchesTarget ran)) := by
  intro fuel
  induction fuel with
  | zero =>
    intro t s
    refine ⟨[], ?_, ?_, ?_⟩ <;> simp [loopRunF, gateFilter]
  | succ fuel ih =>
    intro t s
    by_cases hlt : s.idx < count
    · rcases hm : loopStep ran cat sub (env t) s with _ | s1
      · refine ⟨[], ?_, ?_, ?_⟩ <;> simp [loopRunF, gateFilter, hlt, hm]
      · have hres1 : (loopRunF ran cat sub env count (fuel + 1) t s).1
            = (loopRunF ran cat sub env count fuel (t + 1) s1).1 := by
          simp [loopRunF, hlt, hm]
        obtain ⟨Δ1, h1, h2, h3⟩ := ih (t + 1) s1
        rcases loopStep_trace ran cat sub (env t) s s1 hm with ⟨e1, e2, e3⟩ | ⟨r, e1, e2, e3, _, _⟩
        · refine ⟨Δ1, ?_, ?_, ?_⟩
          · rw [hres1, h1, e1]
          · rw [hres1, h2, e2, e3]
          · rw [hres1, h3, e3]
        · refine ⟨r :: Δ1, ?_, ?_, ?_⟩
          · rw [hres1, h1, e1]
            simp
          · rw [hres1, h2, e3, e2]
            cases hb : s.nameFound with
            | true => simp
            | false =>
              cases hmr : matchesTarget ran r with
              | true => simp [gateFilter, hmr]
              | false => simp [gateFilter, hmr]
          · rw [hres1, h3, e2]
            simp [Bool.or_assoc]
    · refine ⟨[], ?_, ?_, ?_⟩ <;> simp [loopRunF, gateFilter, hlt]

/-- Appending one element to the scanned list extends its first-occurrence
list exactly when the element is new. -/
theorem firstOccAux_append (l : List String) (x : String) :
    ∀ seen, firstOccAux seen (l ++ [x]) =
      if x ∈ seen ∨ x ∈ l then firstOccAux seen l else firstOccAux seen l ++ [x] := by
  induction l with
  | nil =>
    intro seen
    by_cases h : x ∈ seen <;> simp [firstOccAux, h]
  | cons a t ih =>
    intro seen
    by_cases ha : a ∈ seen
    · have hl : firstOccAux seen (a :: t ++ [x]) = firstOccAux seen (t ++ [x]) := by
        simp [firstOccAux, ha]
      have hr : firstOccAux seen (a :: t) = firstOccAux seen t := by
        simp [firstOccAux, ha]
      rw [hl, ih seen, hr]
      by_cases hx : x ∈ seen ∨ x ∈ t
      · have hx2 : x ∈ seen ∨ x ∈ a :: t := by
          rcases hx with h | h
          · exact Or.inl h
          · exact Or.inr (List.mem_cons_of_mem _ h)
        rw [if_pos hx, if_pos hx2]
      · have hx2 : ¬(x ∈ seen ∨ x ∈ a :: t) := by
          intro hc
          rcases hc with h | h
          · exact hx (Or.inl h)
          · rcases List.mem_cons.mp h with rfl | h
            · exact hx (Or.inl ha)
            · exact hx (Or.inr h)
        rw [if_neg hx, if_neg hx2]
    · have hl : firstOccAux seen (a :: t ++ [x]) = a :: firstOccAux (a :: seen) (t ++ [x]) := by
        simp [firstOccAux, ha]
      have hr : firstOccAux seen (a :: t) = a :: firstOccAux (a :: seen) t := by
        simp [firstOccAux, ha]
      rw [hl, ih (a :: seen), hr]
      by_cases hx : x ∈ a :: seen ∨ x ∈ t
      · have hx2 : x ∈ seen ∨ x ∈ a :: t := by
          rcases hx with h | h
          · rcases List.mem_cons.mp h with rfl | h
            · exact Or.inr (List.mem_cons_self _ _)
            · exact Or.inl h
          · exact Or.inr (List.mem_cons_of_mem _ h)
        rw [if_pos hx, if_pos hx2]
      · have hx2 : ¬(x ∈ seen ∨ x ∈ a :: t) := by
          intro hc
          rcases hc with h | h
          · exact hx (Or.inl (List.mem_cons_of_mem _ h))
          · rcases List.mem_cons.mp h with rfl | h
            · exact hx (Or.inl (List.mem_cons_self _ _))
            · exact hx (Or.inr h)
        rw [if_neg hx, if_neg hx2]
        simp

/-- First occurrences after appending one element. -/
theorem firstOccurrences_append (l : List String) (x : String) :
    firstOccurrences (l ++ [x]) =
      if x ∈ l then firstOccurrences l else firstOccurrences l ++ [x] := by
  unfold firstOccurrences
  rw [firstOccAux_append l x []]
  simp

/-- C4: `navigate(url, retries)` makes at most `1 + retries` attempts; a
success on attempt `k` (the first success) returns normally after exactly
`k + 1` attempts; when every one of the `1 + retries` attempts times out,
the timeout failure is propagated to the caller. -/
theorem safe_goto_retry_contract (outcome : Nat → Bool) (retries : Nat) :
    (safeGoto outcome retries).2 ≤ retries + 1
    ∧ (∀ k, (safeGoto outcome retries).1 = Except.ok k →
        outcome k = true ∧ k ≤ retries ∧ (∀ j, j < k → outcome j = false)
        ∧ (safeGoto outcome retries).2 = k + 1)
    ∧ ((safeGoto outcome retries).1 = Except.error PWTimeout.timeout →
        (∀ j, j ≤ retries → outcome j = false)
        ∧ (safeGoto outcome retries).2 = retries + 1) := by
  unfold safeGoto
  obtain ⟨h1, h2, h3⟩ := safeGotoRem_spec outcome retries 0
  refine ⟨h1, ?_, ?_⟩
  · intro k hk
    obtain ⟨hk1, _, hk3, hk4, hk5⟩ := h2 k hk
    exact ⟨hk1, by omega, fun j hj => hk4 j (Nat.zero_le j) hj, by omega⟩
  · intro hk
    obtain ⟨hk1, hk2⟩ := h3 hk
    exact ⟨fun j hj => hk1 j (Nat.zero_le j) (by omega), hk2⟩

/-- Witness for `safe_goto_retry_contract`: with `retries = 2`, an outcome
succeeding only on the third attempt returns after 3 attempts, and an
always-failing outcome propagates the timeout after exactly 3 attempts. -/
theorem safe_goto_retry_contract_witness :
    ((fun t => t == 2) : Nat → Bool) 2 = true
    ∧ (safeGoto (fun t => t == 2) 2).2 = 3
    ∧ (∀ j, j ≤ 2 → ((fun _ => false) : Nat → Bool) j = false)
    ∧ (safeGoto ((fun _ => false) : Nat → Bool) 2).2 = 3 :=
  ⟨((safe_goto_retry_contract (fun t => t == 2) 2).2.1 2 rfl).1,
   ((safe_goto_retry_contract (fun t => t == 2) 2).2.1 2 rfl).2.2.2,
   ((safe_goto_retry_contract (fun _ => false) 2).2.2 rfl).1,
   ((safe_goto_retry_contract (fun _ => false) 2).2.2 rfl).2⟩

/-- C10: the exhibitor loop always terminates: the body breaks as soon as
the index reaches the live card count; every non-breaking iteration
advances the index by exactly 1; the loop executes at most
`count - startIdx` iterations against the bound `count` read once per
visit; and any fuel covering `count - startIdx` yields the identical run,
i.e. the loop exits by itself within that many iterations. -/
theorem exhibitor_loop_terminates :
    (∀ ran cat sub v (s : LoopState), v.liveCount ≤ s.idx →
      loopStep ran cat sub v s = StepOut.brk)
    ∧ (∀ ran cat sub v s s1, loopStep ran cat sub v s = StepOut.next s1 →
        s1.idx = s.idx + 1)
    ∧ (∀ ran cat sub env count fuel t s,
        (loopRunF ran cat sub env count fuel t s).2 ≤ count - s.idx)
    ∧ (∀ ran cat sub env count fuel t s, count - s.idx ≤ fuel →
        loopRunF ran cat sub env count fuel t s
          = loopRunF ran cat sub env count (count - s.idx) t s) := by
  refine ⟨?_, loopStep_next_idx, loopRunF_iters_le, loopRunF_fuel_stable⟩
  intro ran cat sub v s h
  simp [loopStep, h]

/-- Witness for `exhibitor_loop_terminates` at concrete inputs. -/
theorem exhibitor_loop_terminates_witness :
    loopStep "x" "c" "s" ⟨0, some "h", dpW "Alpha"⟩ sA = StepOut.brk
    ∧ (loopRunF "beta" "c" "s" envW 3 5 0 sA).2 ≤ 3 - sA.idx
    ∧ loopRunF "beta" "c" "s" envW 3 5 0 sA = loopRunF "beta" "c" "s" envW 3 (3 - sA.idx) 0 sA :=
  ⟨exhibitor_loop_terminates.1 "x" "c" "s" ⟨0, some "h", dpW "Alpha"⟩ sA (by decide),
   exhibitor_loop_terminates.2.2.1 "beta" "c" "s" envW 3 5 0 sA,
   exhibitor_loop_terminates.2.2.2 "beta" "c" "s" envW 3 5 0 sA (by decide)⟩

/-- C9: a card whose link target was already seen in this subcategory visit
is skipped by advancing the index only (recorded as encountered, not
navigated, nothing written, no checkpoint update); and over a whole visit,
which starts with a fresh seen-set, the cards navigated into are exactly
the first occurrences of the link targets encountered during that visit,
so the same target is processed again in a later visit. -/
theorem dedupe_per_subcategory_visit :
    (∀ ran cat sub v (s : LoopState) href, s.idx < v.liveCount →
      v.cardHref = some href → href ∈ s.seen →
      loopStep ran cat sub v s = StepOut.next { s with
        encountered := s.encountered ++ [href], idx := s.idx + 1 })
    ∧ (∀ ran cat sub env count startIdx nf0 csv0 ckpt0,
        (runSubcatVisit ran cat sub env count startIdx nf0 csv0 ckpt0).1.visited
          = firstOccurrences
              (runSubcatVisit ran cat sub env count startIdx nf0 csv0 ckpt0).1.encountered) := by
  constructor
  · intro ran cat sub v s href h1 h2 h3
    have hnle : ¬ v.liveCount ≤ s.idx := Nat.not_le.mpr h1
    simp [loopStep, hnle, h2, h3]
  · intro ran cat sub env count startIdx nf0 csv0 ckpt0
    have key := loopRunF_inv ran cat sub env count
      (fun s => (∀ x, x ∈ s.seen ↔ x ∈ s.encountered)
        ∧ s.visited = firstOccurrences s.encountered) ?hstep count 0
      ⟨startIdx, [], nf0, csv0, ckpt0, [], [], [], []⟩
      ⟨by simp, by simp [firstOccurrences, firstOccAux]⟩
    case hstep =>
      intro t s s1 hP hstep
      rcases loopStep_dedupe_cases ran cat sub (env t) s s1 hstep with
        ⟨e1, e2, e3⟩ | ⟨href, _, hmem, e1, e2, e3⟩ | ⟨href, _, hmem, e1, e2, e3⟩
      · exact ⟨by rw [e3, e1]; exact hP.1, by rw [e2, e1]; exact hP.2⟩
      · have henc : href ∈ s.encountered := (hP.1 href).mp hmem
        refine ⟨?_, ?_⟩
        · intro x
          rw [e3, e1]
          constructor
          · intro hx
            exact List.mem_append.mpr (Or.inl ((hP.1 x).mp hx))
          · intro hx
            rcases List.mem_append.mp hx with hx2 | hx2
            · exact (hP.1 x).mpr hx2
            · rw [List.mem_singleton] at hx2
              subst hx2
              exact hmem
        · rw [e2, e1, firstOccurrences_append, if_pos henc]
          exact hP.2
      · have henc : href ∉ s.encountered := fun hc => hmem ((hP.1 href).mpr hc)
        refine ⟨?_, ?_⟩
        · intro x
          rw [e3, e1]
          constructor
          · intro hx
            rcases List.mem_cons.mp hx with rfl | hx2
            · exact List.mem_append.mpr (Or.inr (List.mem_singleton.mpr rfl))
            · exact List.mem_append.mpr (Or.inl ((hP.1 x).mp hx2))
          · intro hx
            rcases List.mem_append.mp hx with hx2 | hx2
            · exact List.mem_cons.mpr (Or.inr ((hP.1 x).mpr hx2))
            · exact List.mem_cons.mpr (Or.inl (List.mem_singleton.mp hx2))
        · rw [e2, e1, firstOccurrences_append, if_neg henc, hP.2]
    simpa [runSubcatVisit] using key.2

/-- Witness for `dedupe_per_subcategory_visit`: a repeated link target is
skipped, and a concrete visit with a duplicated card target navigates it
only once. -/
theorem dedupe_per_subcategory_visit_witness :
    loopStep "" "c" "s" ⟨2, some "h", dpW "X"⟩ sD
      = StepOut.next { sD with encountered := sD.encountered ++ ["h"], idx := sD.idx + 1 }
    ∧ (runSubcatVisit "" "c" "s" envD 3 0 true [] none).1.visited
      = firstOccurrences (runSubcatVisit "" "c" "s" envD 3 0 true [] none).1.encountered :=
  ⟨dedupe_per_subcategory_visit.1 "" "c" "s" ⟨2, some "h", dpW "X"⟩ sD "h"
      (by decide) rfl (by decide),
   dedupe_per_subcategory_visit.2 "" "c" "s" envD 3 0 true [] none⟩

/-- C5: the extractor returns a record only when all six fields are
non-empty (with the name element present); its timeout failure happens
exactly when the name element is absent; with the name element present it
always returns (no crash) either the incomplete sentinel or a record; and
on both the timeout and the incomplete outcome the caller writes no row,
appends the corresponding distinct log message, advances the exhibitor
index by 1 and persists the checkpoint, continuing the run. -/
theorem extractor_all_fields_required :
    (∀ p r, extractExhibitorDetails p = Except.ok (some r) →
      p.namePresent = true ∧ r.company_name ≠ "" ∧ r.address ≠ "" ∧ r.website ≠ ""
      ∧ r.phone ≠ "" ∧ r.description ≠ "" ∧ r.booth ≠ "")
    ∧ (∀ p, extractExhibitorDetails p = Except.error PWTimeout.timeout ↔ p.namePresent = false)
    ∧ (∀ p, p.namePresent = true →
        extractExhibitorDetails p = Except.ok none
        ∨ ∃ r, extractExhibitorDetails p = Except.ok (some r))
    ∧ (∀ ran cat sub v (s : LoopState) href, s.idx < v.liveCount →
        v.cardHref = some href → href ∉ s.seen →
        (extractExhibitorDetails v.detail = Except.error PWTimeout.timeout →
          loopStep ran cat sub v s = StepOut.next { s with
            encountered := s.encountered ++ [href], seen := href :: s.seen,
            visited := s.visited ++ [href], log := s.log ++ [LogMsg.skipTimeout],
            idx := s.idx + 1, ckpt := some ⟨cat, sub, s.idx + 1⟩ })
        ∧ (extractExhibitorDetails v.detail = Except.ok none →
          loopStep ran cat sub v s = StepOut.next { s with
            encountered := s.encountered ++ [href], seen := href :: s.seen,
            visited := s.visited ++ [href], log := s.log ++ [LogMsg.skipMissingFields],
            idx := s.idx + 1, ckpt := some ⟨cat, sub, s.idx + 1⟩ }))
    ∧ LogMsg.skipTimeout ≠ LogMsg.skipMissingFields := by
  refine ⟨?_, ?_, ?_, ?_, by simp⟩
  · intro p r h
    simp only [extractExhibitorDetails] at h
    split at h
    · exact Except.noConfusion h
    · rename_i hname
      split at h
      · simp at h
      · rename_i hcond
        push_neg at hcond
        cases h
        refine ⟨?_, hcond.1, hcond.2.1, hcond.2.2.1, hcond.2.2.2.1,
          hcond.2.2.2.2.1, hcond.2.2.2.2.2⟩
        cases hb : p.namePresent
        · exact absurd hb hname
        · rfl
  · intro p
    constructor
    · intro h
      simp only [extractExhibitorDetails] at h
      split at h
      · rename_i hname
        exact hname
      · split at h <;> exact Except.noConfusion h
    · intro h
      simp [extractExhibitorDetails, h]
  · intro p h
    have hn : ¬ (p.namePresent = false) := by simp [h]
    simp only [extractExhibitorDetails, if_neg hn]
    split
    · exact Or.inl rfl
    · exact Or.inr ⟨_, rfl⟩
  · intro ran cat sub v s href h1 h2 h3
    have hnle : ¬ v.liveCount ≤ s.idx := Nat.not_le.mpr h1
    constructor
    · intro hext
      simp [loopStep, hnle, h2, h3, hext]
    · intro hext
      simp [loopStep, hnle, h2, h3, hext]

/-- Witness for `extractor_all_fields_required` at a complete page, a
timed-out page, and the caller's timeout handling from state `sA`. -/
theorem extractor_all_fields_required_witness :
    (dpW "N").namePresent = true
    ∧ (recW "N").company_name ≠ ""
    ∧ extractExhibitorDetails dpT = Except.error PWTimeout.timeout
    ∧ loopStep "x" "c" "s" ⟨1, some "h", dpT⟩ sA = StepOut.next { sA with
        encountered := sA.encountered ++ ["h"], seen := "h" :: sA.seen,
        visited := sA.visited ++ ["h"], log := sA.log ++ [LogMsg.skipTimeout],
        idx := sA.idx + 1, ckpt := some ⟨"c", "s", sA.idx + 1⟩ } :=
  ⟨(extractor_all_fields_required.1 (dpW "N") (recW "N") (by decide)).1,
   (extractor_all_fields_required.1 (dpW "N") (recW "N") (by decide)).2.1,
   (extractor_all_fields_required.2.1 dpT).mpr rfl,
   (extractor_all_fields_required.2.2.2.1 "x" "c" "s" ⟨1, some "h", dpT⟩ sA "h"
      (by decide) rfl (by decide)).1 (by decide)⟩

/-- C1: with the name-skip gate initially active, the rows a subcategory
visit appends are exactly the records extracted strictly after the first
record whose name matches the target (records up to and including the
match are discarded); the gate never reactivates once off; a step from a
gate-inactive state extracting record `r` ends with the gate off iff `r`
matches the target; and a gate-active discarded record still advances the
index by 1 and persists the checkpoint. -/
theorem name_skip_gate_spec :
    (∀ ran cat sub env count startIdx csv0 ckpt0,
      (runSubcatVisit ran cat sub env count startIdx false csv0 ckpt0).1.csv
        = csv0 ++ (gateFilter ran
            (runSubcatVisit ran cat sub env count startIdx false csv0 ckpt0).1.extracted).map
            (fun r => Row.mk cat sub r))
    ∧ (∀ ran cat sub v s s1, loopStep ran cat sub v s = StepOut.next s1 →
        s.nameFound = true → s1.nameFound = true)
    ∧ (∀ ran cat sub v s s1 r, loopStep ran cat sub v s = StepOut.next s1 →
        s.nameFound = false → s1.extracted = s.extracted ++ [r] →
        (s1.nameFound = true ↔ matchesTarget ran r = true))
    ∧ (∀ ran cat sub v s s1 r, loopStep ran cat sub v s = StepOut.next s1 →
        s.nameFound = false → s1.extracted = s.extracted ++ [r] →
        s1.csv = s.csv ∧ s1.idx = s.idx + 1 ∧ s1.ckpt = some ⟨cat, sub, s.idx + 1⟩) := by
  refine ⟨?_, ?_, ?_, ?_⟩
  · intro ran cat sub env count startIdx csv0 ckpt0
    obtain ⟨Δ, h1, h2, h3⟩ := loopRunF_gate ran cat sub env count count 0
      ⟨startIdx, [], false, csv0, ckpt0, [], [], [], []⟩
    simp only [runSubcatVisit]
    simp only at h1 h2
    rw [List.nil_append] at h1
    simp only [Bool.false_eq_true, if_false] at h2
    simp [h1, h2]
  · intro ran cat sub v s s1 h hnf
    rcases loopStep_trace ran cat sub v s s1 h with ⟨_, _, e3⟩ | ⟨r, _, e2, _, _, _⟩
    · rw [e3, hnf]
    · rw [e2, hnf]
      simp
  · intro ran cat sub v s s1 r h hnf hext
    rcases loopStep_trace ran cat sub v s s1 h with ⟨e1, _, e3⟩ | ⟨r1, e1, e2, _, _, _⟩
    · rw [hext] at e1
      have := congrArg List.length e1
      simp at this
    · rw [hext] at e1
      have hr : r = r1 := by
        have h' := List.append_inj_right e1 rfl
        simpa using h'
      subst hr
      rw [e2, hnf]
      simp
  · intro ran cat sub v s s1 r h hnf hext
    rcases loopStep_trace ran cat sub v s s1 h with ⟨e1, _, _⟩ | ⟨r1, e1, _, e3, e4, e5⟩
    · rw [hext] at e1
      have := congrArg List.length e1
      simp at this
    · refine ⟨?_, e4, e5⟩
      rw [e3, hnf]
      simp

/-- Witness for `name_skip_gate_spec`: a concrete visit over three records
where only the record after the target match is written, and a concrete
gate-active discarding step. -/
theorem name_skip_gate_spec_witness :
    (runSubcatVisit "beta" "c" "s" envW 3 0 false [] none).1.csv
      = [] ++ (gateFilter "beta"
          (runSubcatVisit "beta" "c" "s" envW 3 0 false [] none).1.extracted).map
          (fun r => Row.mk "c" "s" r)
    ∧ (s1A.nameFound = true ↔ matchesTarget "beta" (recW "Alpha") = true)
    ∧ (s1A.csv = sA.csv ∧ s1A.idx = sA.idx + 1 ∧ s1A.ckpt = some ⟨"c", "s", sA.idx + 1⟩) :=
  ⟨name_skip_gate_spec.1 "beta" "c" "s" envW 3 0 [] none,
   name_skip_gate_spec.2.2.1 "beta" "c" "s" ⟨1, some "h", dpW "Alpha"⟩ sA s1A (recW "Alpha")
      (by decide) rfl (by decide),
   name_skip_gate_spec.2.2.2 "beta" "c" "s" ⟨1, some "h", dpW "Alpha"⟩ sA s1A (recW "Alpha")
      (by decide) rfl (by decide)⟩

/-- A digit is a `phoneClass` character. -/
theorem phoneClass_of_isDig (c : Char) (h : isDig c = true) : phoneClass c = true := by
  simp [phoneClass, h]

/-- A digit is not a whitespace character. -/
theorem isWS_of_isDig (c : Char) (h : isDig c = true) : isWS c = false := by
  simp only [isDig, Bool.and_eq_true, decide_eq_true_eq] at h
  simp only [isWS, Bool.or_eq_false_iff, beq_eq_false_iff_ne, ne_eq]
  omega

/-- Taking one element past a prefix. -/
theorem take_append_len (a : List Char) (d : Char) (b : List Char) :
    (a ++ d :: b).take (a.length + 1) = a ++ [d] := by
  induction a with
  | nil => simp
  | cons x t ih => simp [List.take_succ_cons, ih]

/-- `lastDigitIn` decomposes the list at a digit whose prefix is all
`phoneClass`. -/
theorem lastDigitIn_some_decomp (l : List Char) :
    ∀ j, lastDigitIn l = some j →
      ∃ a d b, l = a ++ d :: b ∧ a.length = j
        ∧ (∀ c ∈ a, phoneClass c = true) ∧ isDig d = true := by
  induction l with
  | nil => intro j h; simp [lastDigitIn] at h
  | cons c rest ih =>
    intro j h
    simp only [lastDigitIn] at h
    split at h
    · rename_i hc
      cases hrest : lastDigitIn rest with
      | some k =>
        simp only [hrest] at h
        cases h
        obtain ⟨a, d, b, e1, e2, e3, e4⟩ := ih k hrest
        refine ⟨c :: a, d, b, by simp [e1], by simp [e2], ?_, e4⟩
        intro x hx
        rcases List.mem_cons.mp hx with rfl | hx2
        · exact hc
        · exact e3 x hx2
      | none =>
        simp only [hrest] at h
        by_cases hd : isDig c = true
        · rw [if_pos hd] at h
          cases h
          exact ⟨[], c, rest, rfl, rfl, by intro x hx; simp at hx, hd⟩
        · rw [if_neg hd] at h
          exact Option.noConfusion h
    · exact Option.noConfusion h

/-- A digit after an all-`phoneClass` prefix guarantees `lastDigitIn`
returns an index at least the prefix length. -/
theorem lastDigitIn_append (a : List Char) (d : Char) (b : List Char)
    (ha : ∀ c ∈ a, phoneClass c = true) (hd : isDig d = true) :
    ∃ j, lastDigitIn (a ++ d :: b) = some j ∧ a.length ≤ j := by
  induction a with
  | nil =>
    have hc : phoneClass d = true := phoneClass_of_isDig d hd
    cases hb : lastDigitIn b with
    | some k => exact ⟨k + 1, by simp [lastDigitIn, hc, hb], by simp⟩
    | none => exact ⟨0, by simp [lastDigitIn, hc, hb, hd], by simp⟩
  | cons x t ih =>
    have hx : phoneClass x = true := ha x (List.mem_cons_self x _)
    have ht : ∀ c ∈ t, phoneClass c = true := fun c hc => ha c (List.mem_cons_of_mem _ hc)
    obtain ⟨j, hj, hle⟩ := ih ht
    refine ⟨j + 1, by simp [lastDigitIn, hx, hj], by simpa using hle⟩

/-- A successful `coreMatch` yields a `CoreShape` prefix of length `j+1`. -/
theorem coreMatch_some_shape (l : List Char) (j : Nat) (h : coreMatch l = some j) :
    CoreShape (l.take (j + 1)) := by
  cases l with
  | nil => simp [coreMatch] at h
  | cons c rest =>
    simp only [coreMatch] at h
    split at h
    · rename_i hc
      cases hld : lastDigitIn (c :: rest) with
      | some j0 =>
        simp only [hld] at h
        by_cases h7 : 7 ≤ j0
        · rw [if_pos h7] at h
          cases h
          obtain ⟨a, d, b, e1, e2, e3, e4⟩ := lastDigitIn_some_decomp (c :: rest) j hld
          have htake : (c :: rest).take (j + 1) = a ++ [d] := by
            rw [e1, ← e2]
            exact take_append_len a d b
          rw [htake]
          refine ⟨by simp [e2]; omega, ?_, ?_, ⟨a, d, rfl, e4⟩⟩
          · intro x hx
            rcases List.mem_append.mp hx with hx2 | hx2
            · exact e3 x hx2
            · rw [List.mem_singleton] at hx2
              subst hx2
              exact phoneClass_of_isDig x e4
          · cases a with
            | nil => exact ⟨d, [], by simp, e4⟩
            | cons a0 a' =>
              have ha0 : c = a0 := by
                have hh := congrArg List.head? e1
                simpa using hh
              exact ⟨a0, a' ++ [d], by simp, by rw [← ha0]; exact hc⟩
        · rw [if_neg h7] at h
          exact Option.noConfusion h
      | none =>
        simp only [hld] at h
        exact Option.noConfusion h
    · exact Option.noConfusion h

/-- A `CoreShape` prefix guarantees `coreMatch` succeeds. -/
theorem coreMatch_isSome_of_shape (core b : List Char) (h : CoreShape core) :
    coreMatch (core ++ b) ≠ none := by
  obtain ⟨hlen, hcls, ⟨d0, rest0, hhead, hd0⟩, ⟨init, d, hlast, hd⟩⟩ := h
  have hicls : ∀ c ∈ init, phoneClass c = true := by
    intro c hcmem
    exact hcls c (by rw [hlast]; exact List.mem_append.mpr (Or.inl hcmem))
  have hsplit : core ++ b = init ++ d :: b := by
    rw [hlast]
    simp
  obtain ⟨j, hj, hjle⟩ := lastDigitIn_append init d b hicls hd
  have hinit : 7 ≤ init.length := by
    have hll := congrArg List.length hlast
    simp at hll
    omega
  have h7 : 7 ≤ j := by omega
  have hheadb : core ++ b = d0 :: (rest0 ++ b) := by
    rw [hhead]
    simp
  have hld : lastDigitIn (d0 :: (rest0 ++ b)) = some j := by
    rw [← hheadb, hsplit]
    exact hj
  have hcm : coreMatch (d0 :: (rest0 ++ b)) = some j := by
    simp [coreMatch, hd0, hld, h7]
  rw [hheadb, hcm]
  simp

/-- A successful `matchAt` yields a shaped match that prefixes the input. -/
theorem matchAt_some_shape (l m : List Char) (h : matchAt l = some m) :
    MatchShape m ∧ ∃ b, l = m ++ b := by
  cases l with
  | nil => simp [matchAt] at h
  | cons c rest =>
    simp only [matchAt] at h
    split at h
    · rename_i hplus
      have hc : c = '+' := beq_iff_eq.mp hplus
      subst hc
      cases hcm : coreMatch rest with
      | none => rw [hcm] at h; exact Option.noConfusion h
      | some j =>
        rw [hcm] at h
        simp only [Option.map_some'] at h
        cases h
        have hshape := coreMatch_some_shape rest j hcm
        refine ⟨Or.inr ⟨rest.take (j + 1), rfl, hshape⟩, rest.drop (j + 1), ?_⟩
        rw [List.cons_append, List.take_append_drop]
    · cases hcm : coreMatch (c :: rest) with
      | none => rw [hcm] at h; exact Option.noConfusion h
      | some j =>
        rw [hcm] at h
        simp only [Option.map_some'] at h
        cases h
        have hshape := coreMatch_some_shape (c :: rest) j hcm
        exact ⟨Or.inl hshape, (c :: rest).drop (j + 1),
          (List.take_append_drop (j + 1) (c :: rest)).symm⟩

/-- A shaped prefix guarantees `matchAt` succeeds. -/
theorem matchAt_isSome_of_shape (l m b : List Char) (hl : l = m ++ b)
    (hm : MatchShape m) : matchAt l ≠ none := by
  rcases hm with hcs | ⟨core, hplus, hcs⟩
  · obtain ⟨d0, rest0, hhead, hd0⟩ := hcs.2.2.1
    have hl2 : l = d0 :: (rest0 ++ b) := by
      rw [hl, hhead]
      simp
    have hne : (d0 == '+') = false := by
      apply beq_eq_false_iff_ne.mpr
      intro hq
      rw [hq] at hd0
      exact absurd hd0 (by decide)
    have hcore : d0 :: (rest0 ++ b) = m ++ b := by rw [hhead]; simp
    rw [hl2]
    simp only [matchAt, hne, Bool.false_eq_true, if_false, ne_eq,
      Option.map_eq_none']
    rw [hcore]
    exact coreMatch_isSome_of_shape m b hcs
  · have hl2 : l = '+' :: (core ++ b) := by
      rw [hl, hplus]
      simp
    rw [hl2]
    simp only [matchAt, beq_self_eq_true, if_true, ne_eq, Option.map_eq_none']
    exact coreMatch_isSome_of_shape core b hcs

/-- When the scan fails, no substring of the text has the match shape. -/
theorem searchPhone_none_no_match (l : List Char) (h : searchPhone l = none) :
    ∀ pre m suf, l = pre ++ m ++ suf → ¬ MatchShape m := by
  induction l with
  | nil =>
    intro pre m suf he hm
    have hm0 : m.length = 0 := by
      have hlen := congrArg List.length he
      simp at hlen
      omega
    have hm1 : m = [] := List.eq_nil_of_length_eq_zero hm0
    subst hm1
    rcases hm with hcs | ⟨core, hc, _⟩
    · have := hcs.1
      simp at this
    · exact List.noConfusion hc
  | cons c rest ih =>
    intro pre m suf he hm
    simp only [searchPhone] at h
    cases hma : matchAt (c :: rest) with
    | some m0 =>
      rw [hma] at h
      exact Option.noConfusion h
    | none =>
      rw [hma] at h
      cases pre with
      | nil =>
        simp only [List.nil_append] at he
        exact matchAt_isSome_of_shape (c :: rest) m suf he hm hma
      | cons p pre' =>
        have he2 : rest = pre' ++ m ++ suf := by
          have := (List.cons.injEq c rest p (pre' ++ m ++ suf)).mp (by simpa using he)
          exact this.2
        exact ih h pre' m suf he2 hm

/-- When the scan succeeds it returns a shaped match at the leftmost
position admitting one. -/
theorem searchPhone_some_first (l m : List Char) (h : searchPhone l = some m) :
    MatchShape m ∧ ∃ pre suf, l = pre ++ m ++ suf
      ∧ ∀ pre' m' suf', l = pre' ++ m' ++ suf' → MatchShape m' →
          pre.length ≤ pre'.length := by
  induction l with
  | nil => simp [searchPhone] at h
  | cons c rest ih =>
    simp only [searchPhone] at h
    cases hma : matchAt (c :: rest) with
    | some m0 =>
      rw [hma] at h
      cases h
      obtain ⟨hshape, b, hl⟩ := matchAt_some_shape (c :: rest) m hma
      refine ⟨hshape, [], b, by simpa using hl, ?_⟩
      intro pre' m' suf' he' hm'
      simp
    | none =>
      rw [hma] at h
      obtain ⟨hshape, pre1, suf1, hl1, hmin⟩ := ih h
      refine ⟨hshape, c :: pre1, suf1, by simp [hl1], ?_⟩
      intro pre' m' suf' he' hm'
      cases pre' with
      | nil =>
        simp only [List.nil_append] at he'
        exact absurd hma (matchAt_isSome_of_shape (c :: rest) m' suf' he' hm')
      | cons p pre'' =>
        have he2 : rest = pre'' ++ m' ++ suf' := by
          have := (List.cons.injEq c rest p (pre'' ++ m' ++ suf')).mp (by simpa using he')
          exact this.2
        have := hmin pre'' m' suf' he2 hm'
        simp only [List.length_cons]
        omega

/-- Dropping a failing predicate from the head leaves the list unchanged. -/
theorem dropWhile_eq_self_of_head (p : Char → Bool) (l : List Char)
    (h : ∀ c, l.head? = some c → p c = false) : l.dropWhile p = l := by
  cases l with
  | nil => rfl
  | cons c t =>
    have hc := h c rfl
    simp [List.dropWhile_cons, hc]

/-- Stripping does nothing when both ends are non-whitespace. -/
theorem stripChars_eq_self (l : List Char)
    (h1 : ∀ c, l.head? = some c → isWS c = false)
    (h2 : ∀ c, l.getLast? = some c → isWS c = false) : stripChars l = l := by
  unfold stripChars
  rw [dropWhile_eq_self_of_head isWS l h1]
  rw [dropWhile_eq_self_of_head isWS l.reverse
    (fun c hc => h2 c (by rwa [List.head?_reverse] at hc))]
  exact List.reverse_reverse l

/-- A shaped match starts with `'+'` or a digit and ends with a digit, so
Python's `strip()` leaves it unchanged. -/
theorem stripChars_matchShape (m : List Char) (h : MatchShape m) :
    stripChars m = m := by
  apply stripChars_eq_self
  · intro c hc
    rcases h with hcs | ⟨core, hplus, hcs⟩
    · obtain ⟨d0, rest0, hhead, hd0⟩ := hcs.2.2.1
      rw [hhead, List.head?_cons] at hc
      cases hc
      exact isWS_of_isDig _ hd0
    · rw [hplus, List.head?_cons] at hc
      cases hc
      decide
  · intro c hc
    rcases h with hcs | ⟨core, hplus, hcs⟩
    · obtain ⟨init, d, hlast, hd⟩ := hcs.2.2.2
      rw [hlast, List.getLast?_concat] at hc
      cases hc
      exact isWS_of_isDig _ hd
    · obtain ⟨init, d, hlast, hd⟩ := hcs.2.2.2
      have hsplit : m = ('+' :: init) ++ [d] := by
        rw [hplus, hlast]
        simp
      rw [hsplit, List.getLast?_concat] at hc
      cases hc
      exact isWS_of_isDig _ hd

/-- C6: the extracted phone field is the first (leftmost) match of the
pattern `\+?\d[\d\-(). ]{6,}\d` in the contact text: it is empty exactly
when no substring has the match shape (a digit-and-separator run of
length at least 8, beginning and ending with a digit, with an optional
leading `'+'`); and a found match is returned verbatim (its `strip()` is
the identity), has the match shape, and starts at the leftmost position
of any shaped substring. -/
theorem phone_regex_first_match (t : String) :
    (phoneOf t = "" ↔ ¬ ∃ pre m suf, t.data = pre ++ m ++ suf ∧ MatchShape m)
    ∧ (∀ m, searchPhone t.data = some m →
        MatchShape m ∧ phoneOf t = String.mk m
        ∧ ∃ pre suf, t.data = pre ++ m ++ suf
            ∧ ∀ pre' m' suf', t.data = pre' ++ m' ++ suf' → MatchShape m' →
                pre.length ≤ pre'.length) := by
  have hmk : ∀ m, MatchShape m → pyStrip (String.mk m) = String.mk m := by
    intro m hm
    unfold pyStrip
    rw [show (String.mk m).data = m from rfl, stripChars_matchShape m hm]
  constructor
  · constructor
    · intro h hex
      obtain ⟨pre, m, suf, he, hm⟩ := hex
      cases hs : searchPhone t.data with
      | none => exact searchPhone_none_no_match t.data hs pre m suf he hm
      | some m0 =>
        obtain ⟨hshape0, -⟩ := searchPhone_some_first t.data m0 hs
        have hp : phoneOf t = String.mk m0 := by
          unfold phoneOf
          rw [hs]
          exact hmk m0 hshape0
        rw [hp] at h
        have hm0 : m0 = [] := by
          have hd := congrArg String.data h
          simpa using hd
        subst hm0
        rcases hshape0 with hcs | ⟨core, hc, _⟩
        · have := hcs.1
          simp at this
        · exact List.noConfusion hc
    · intro h
      cases hs : searchPhone t.data with
      | none =>
        unfold phoneOf
        rw [hs]
      | some m0 =>
        obtain ⟨hshape0, pre, suf, hl, -⟩ := searchPhone_some_first t.data m0 hs
        exact absurd ⟨pre, m0, suf, hl, hshape0⟩ h
  · intro m hs
    obtain ⟨hshape, pre, suf, hl, hmin⟩ := searchPhone_some_first t.data m hs
    refine ⟨hshape, ?_, pre, suf, hl, hmin⟩
    unfold phoneOf
    rw [hs]
    exact hmk m hshape

/-- Witness for `phone_regex_first_match`: in `"x123-45678"` the scan finds
`"123-45678"`, a shaped 9-character run returned verbatim. -/
theorem phone_regex_first_match_witness :
    MatchShape ("123-45678".data)
    ∧ phoneOf "x123-45678" = String.mk ("123-45678".data) :=
  ⟨((phone_regex_first_match "x123-45678").2 ("123-45678".data) (by decide)).1,
   ((phone_regex_first_match "x123-45678").2 ("123-45678".data) (by decide)).2.1⟩

end Conexpo
